import Mathlib

/-!
Verification of `src/tautulli/mod.rs` from the media-cleaner repository.

The Rust module aggregates a raw watch history (a list of watch events for
one media item) into one latest watch per user, then projects the retained
events into a media-type-specific record.

Embedding conventions:
- Rust `i64` is `Int`; arithmetic overflow is modelled explicitly with the
  checked (panicking) semantics that Rust's default dev profile uses.
- Rust `u8` / `u32` are `Nat` (the program only moves these values around,
  it never does arithmetic on them, so no wrap-around can arise).
- A Rust panic (from `unwrap` / `expect` / overflow) is modelled as
  `Except.error msg` where `msg` is the panic message; normal return is
  `Except.ok`.
- The `BTreeMap<&String, &HistoryItem>` built by the fold in
  `get_item_watches` is modelled as an association list that is kept
  strictly sorted by key, which is exactly the iteration order the Rust
  `BTreeMap` exposes.  `String` comparison in Lean is lexicographic on
  code points, which agrees with Rust's byte-wise `Ord` on UTF-8 strings.
-/

/-- Modelled from the spec: `shared::MediaType` (module `shared` is not in
`src/`); the spec describes "a closed, two-variant kind tag", Movie or Tv. -/
inductive MediaType where
  | Movie : MediaType
  | Tv : MediaType
deriving Repr, DecidableEq

/-- Modelled from the spec: `responses::HistoryItem` (module `responses` is
not in `src/`); field list taken from the uses in `mod.rs` and from the
spec's `RawWatchEvent` (`viewer_id`, `watched_at` as whole-second Unix
timestamp, `completion_percent`, optional `season_index` / `episode_index`). -/
structure HistoryItem where
  user : String
  date : Int
  duration : Int
  percent_complete : Nat
  media_index : Option Nat
  parent_media_index : Option Nat
deriving Repr, DecidableEq

/-- Modelled from the spec: `responses::History` (module `responses` is not
in `src/`); the spec's `RawHistoryPage` with `draw_token`,
`total_record_count`, `filtered_record_count` and the event list. -/
structure History where
  draw : Nat
  records_total : Nat
  records_filtered : Nat
  data : List HistoryItem
deriving Repr, DecidableEq

/-- Modelled from the spec: a movie-flavored history event, structurally
omitting `season_index` / `episode_index`; field list from the uses in
`history_movie_to_history`. -/
structure HistoryMovieItem where
  user : String
  date : Int
  duration : Int
  percent_complete : Nat
deriving Repr, DecidableEq

/-- Modelled from the spec: `responses::HistoryMovie`, the movie-flavored
history page. -/
structure HistoryMovie where
  draw : Nat
  records_total : Nat
  records_filtered : Nat
  data : List HistoryMovieItem
deriving Repr, DecidableEq

/-- Rust struct `ItemWithHistory<T>` of `mod.rs`. -/
structure ItemWithHistory (T : Type) where
  rating_key : String
  watches : List T
deriving Repr, DecidableEq

/-- Rust struct `UserMovieWatch`.  `DateTime<Utc>` is represented by its
timestamp in milliseconds (see `unix_seconds_to_date`). -/
structure UserMovieWatch where
  display_name : String
  last_watched : Int
  progress : Nat
deriving Repr, DecidableEq

/-- Rust struct `UserEpisodeWatch`. -/
structure UserEpisodeWatch where
  display_name : String
  last_watched : Int
  progress : Nat
  season : Nat
  episode : Nat
deriving Repr, DecidableEq

/-- Rust enum `WatchHistory`. -/
inductive WatchHistory where
  | Movie : ItemWithHistory UserMovieWatch → WatchHistory
  | TvShow : ItemWithHistory UserEpisodeWatch → WatchHistory
deriving Repr, DecidableEq

/-- The panic message of `Option::unwrap` on `None` in Rust. -/
def unwrapPanicMsg : String := "called Option::unwrap() on a None value"

/-- The panic message of a checked `i64` multiplication overflow in Rust. -/
def mulOverflowPanicMsg : String := "attempt to multiply with overflow"

/-- Smallest `i64` value. -/
def I64_MIN : Int := -(2 ^ 63)

/-- Largest `i64` value. -/
def I64_MAX : Int := 2 ^ 63 - 1

/-- Smallest millisecond count representable by a chrono `NaiveDateTime`:
the timestamp of `-262144-01-01T00:00:00` in milliseconds. -/
def NAIVE_MIN_MILLIS : Int := -8334632851200000

/-- Largest millisecond count representable by a chrono `NaiveDateTime`:
the timestamp of `262143-12-31T23:59:59.999` in milliseconds. -/
def NAIVE_MAX_MILLIS : Int := 8210298412799999

/-- chrono `NaiveDateTime::from_timestamp_millis`: succeeds exactly when the
millisecond count lies in the representable range.  The resulting
`NaiveDateTime` is represented by its millisecond timestamp. -/
def from_timestamp_millis (millis : Int) : Option Int :=
  if NAIVE_MIN_MILLIS ≤ millis ∧ millis ≤ NAIVE_MAX_MILLIS then some millis else none

/-- Rust function `unix_seconds_to_date` (`mod.rs` lines 156-159):
`unix_seconds * 1000` with checked `i64` overflow, then
`from_timestamp_millis(..).unwrap()`, then `Some(DateTime::from_utc(..))`.
The `DateTime<Utc>` equals its `NaiveDateTime` in UTC, so it is represented
by the same millisecond timestamp. -/
def unix_seconds_to_date (unix_seconds : Int) : Except String (Option Int) :=
  if I64_MIN ≤ unix_seconds * 1000 ∧ unix_seconds * 1000 ≤ I64_MAX then
    match from_timestamp_millis (unix_seconds * 1000) with
    | some naive_date => Except.ok (some naive_date)
    | none => Except.error unwrapPanicMsg
  else
    Except.error mulOverflowPanicMsg

/-- Rust `Option::expect`: the value on `Some`, a panic carrying `msg` on
`None`. -/
def expectOpt {α : Type} (o : Option α) (msg : String) : Except String α :=
  match o with
  | some a => Except.ok a
  | none => Except.error msg

/-- Rust `Option::unwrap`: the value on `Some`, a panic on `None`. -/
def unwrapOpt {α : Type} (o : Option α) : Except String α :=
  match o with
  | some a => Except.ok a
  | none => Except.error unwrapPanicMsg

/-- Iterator `map(..).collect()` where the closure can panic: events are
processed in order and the first panic aborts the traversal. -/
def collectMap {α β : Type} (f : α → Except String β) : List α → Except String (List β)
  | [] => Except.ok []
  | x :: xs => do
    let y ← f x
    let ys ← collectMap f xs
    Except.ok (y :: ys)

/-- The closure mapped over the map entries in
`WatchHistory::create_movie_history` (`mod.rs` lines 37-44): build a
`UserMovieWatch` from one `(user, movie_watch)` entry, where
`unix_seconds_to_date(..)` is followed by `.expect` with a message naming
the rating key. -/
def movie_watch_of (rating_key : String) (p : String × HistoryItem) :
    Except String UserMovieWatch := do
  let d ← unix_seconds_to_date p.2.date
  let last_watched ← expectOpt d
    ("Failed to parse unix time for rating key " ++ rating_key)
  Except.ok { display_name := p.1
              last_watched := last_watched
              progress := p.2.percent_complete : UserMovieWatch }

/-- The closure mapped over the map entries in
`WatchHistory::create_tv_history` (`mod.rs` lines 56-65): like the movie
case but also reading `parent_media_index.unwrap()` and
`media_index.unwrap()`. -/
def episode_watch_of (rating_key : String) (p : String × HistoryItem) :
    Except String UserEpisodeWatch := do
  let d ← unix_seconds_to_date p.2.date
  let last_watched ← expectOpt d
    ("Failed to parse unix time for rating key " ++ rating_key)
  let season ← unwrapOpt p.2.parent_media_index
  let episode ← unwrapOpt p.2.media_index
  Except.ok { display_name := p.1
              last_watched := last_watched
              progress := p.2.percent_complete
              season := season
              episode := episode : UserEpisodeWatch }

/-- Rust method `WatchHistory::create_movie_history` (`mod.rs` lines 31-51). -/
def create_movie_history (user_watches : List (String × HistoryItem))
    (rating_key : String) : Except String WatchHistory := do
  let watches ← collectMap (movie_watch_of rating_key) user_watches
  Except.ok (WatchHistory.Movie { rating_key := rating_key, watches := watches })

/-- Rust method `WatchHistory::create_tv_history` (`mod.rs` lines 53-72). -/
def create_tv_history (user_watches : List (String × HistoryItem))
    (rating_key : String) : Except String WatchHistory := do
  let watches ← collectMap (episode_watch_of rating_key) user_watches
  Except.ok (WatchHistory.TvShow { rating_key := rating_key, watches := watches })

/-- Rust method `WatchHistory::from_user_watches` (`mod.rs` lines 20-29). -/
def from_user_watches (user_watches : List (String × HistoryItem))
    (media_type : MediaType) (rating_key : String) : Except String WatchHistory :=
  match media_type with
  | MediaType.Movie => create_movie_history user_watches rating_key
  | MediaType.Tv => create_tv_history user_watches rating_key

/-- Boolean lexicographic comparison of char lists, mirroring the decision
procedure of `List.lt`; kernel-computable (unlike `String.ltb`). -/
def charListLtB : List Char → List Char → Bool
  | _, [] => false
  | [], _ :: _ => true
  | a :: as, b :: bs => if a < b then true else if b < a then false else charListLtB as bs

/-- Boolean lexicographic comparison of strings: the order a Rust
`BTreeMap<&String, _>` sorts its keys by (byte-wise comparison of UTF-8
strings coincides with code-point-wise lexicographic comparison). -/
def strLtB (a b : String) : Bool := charListLtB a.data b.data

/-- One step of the fold in `get_item_watches` (`mod.rs` lines 104-115):
`user_latest_watch.entry(&current_watch.user).and_modify(|entry| if
entry.date < current_watch.date { *entry = current_watch }).or_insert(current_watch)`
on the sorted-association-list model of the `BTreeMap`. -/
def insertWatch (m : List (String × HistoryItem)) (w : HistoryItem) :
    List (String × HistoryItem) :=
  match m with
  | [] => [(w.user, w)]
  | (k, v) :: rest =>
    if strLtB w.user k then (w.user, w) :: (k, v) :: rest
    else if w.user = k then
      (k, if v.date < w.date then w else v) :: rest
    else (k, v) :: insertWatch rest w

/-- The fold of `get_item_watches` (`mod.rs` lines 100-115): reduce the
event list to the per-user latest watch, in the `BTreeMap`'s sorted
iteration order. -/
def latest_user_history (data : List HistoryItem) : List (String × HistoryItem) :=
  data.foldl insertWatch []

/-- The pure core of `get_item_watches` (`mod.rs` lines 97-122) after the
single awaited fetch returned `history`: fold to the per-user latest watch,
then project via `from_user_watches`. -/
def get_item_watches_core (history : History) (rating_key : String)
    (media_type : MediaType) : Except String WatchHistory :=
  from_user_watches (latest_user_history history.data) media_type rating_key

/-- Rust function `history_movie_to_history` (`mod.rs` lines 136-154). -/
def history_movie_to_history (history : HistoryMovie) : History :=
  { draw := history.draw
    records_total := history.records_total
    records_filtered := history.records_filtered
    data := history.data.map (fun item =>
      { user := item.user
        date := item.date
        duration := item.duration
        percent_complete := item.percent_complete
        media_index := none
        parent_media_index := none : HistoryItem }) }

/-! ## Order facts about the string comparison -/

theorem charListLtB_iff (as bs : List Char) : charListLtB as bs = true ↔ as < bs := by
  induction as generalizing bs with
  | nil =>
    cases bs with
    | nil => simp [charListLtB]
    | cons b bs =>
      simp only [charListLtB]
      exact iff_of_true trivial (List.nil_lt_cons b bs)
  | cons a as ih =>
    cases bs with
    | nil =>
      simp only [charListLtB, Bool.false_eq_true, false_iff]
      intro h
      cases h
    | cons b bs =>
      by_cases hab : a < b
      · simp only [charListLtB, hab, if_true, true_iff]
        exact List.Lex.rel hab
      · by_cases hba : b < a
        · simp only [charListLtB, hab, if_false, hba, if_true, Bool.false_eq_true, false_iff]
          intro h
          cases h with
          | cons h => exact lt_irrefl a hba
          | rel h => exact hab h
        · have hEq : a = b := le_antisymm (not_lt.mp hba) (not_lt.mp hab)
          subst hEq
          simp only [charListLtB, hab, if_false, ih]
          constructor
          · intro h; exact List.Lex.cons h
          · intro h
            cases h with
            | cons h => exact h
            | rel h => exact absurd h hab

theorem strLtB_iff (a b : String) : strLtB a b = true ↔ a < b := by
  rw [String.lt_iff_toList_lt]
  exact charListLtB_iff a.data b.data

theorem str_lt_eq_strLtB (a b : String) : (a < b) = (strLtB a b = true) :=
  (propext (strLtB_iff a b)).symm

/-! ## The per-user fold seen through one key

`applyStep`, `step1` and `latestOf` describe what the `BTreeMap` fold of
`get_item_watches` does to the entry of a single user `u`: scan the events
in order, keep the first event of user `u`, and afterwards replace the kept
event exactly when a later event of user `u` has a strictly greater date. -/

/-- Effect of one event `w` on the entry currently held for `w.user`. -/
def applyStep (acc : Option HistoryItem) (w : HistoryItem) : HistoryItem :=
  match acc with
  | none => w
  | some cur => if cur.date < w.date then w else cur

/-- Effect of one event `e` on the entry currently held for user `u`. -/
def step1 (u : String) (acc : Option HistoryItem) (e : HistoryItem) : Option HistoryItem :=
  if e.user = u then some (applyStep acc e) else acc

/-- The event the fold of `get_item_watches` retains for user `u`. -/
def latestOf (u : String) (data : List HistoryItem) : Option HistoryItem :=
  data.foldl (step1 u) none

/-- The association-list model of the `BTreeMap` keeps its keys strictly
sorted. -/
abbrev SortedKeys (m : List (String × HistoryItem)) : Prop :=
  List.Pairwise (fun p q => p.1 < q.1) m


theorem keys_mem_insertWatch (m : List (String × HistoryItem)) (w : HistoryItem)
    (q : String) (hq : q ∈ (insertWatch m w).map Prod.fst) :
    q = w.user ∨ q ∈ m.map Prod.fst := by
  induction m with
  | nil =>
    simp [insertWatch] at hq
    exact Or.inl hq
  | cons p rest ih =>
    obtain ⟨k, v⟩ := p
    simp only [insertWatch] at hq
    by_cases h1 : strLtB w.user k
    · rw [if_pos h1] at hq
      simp only [List.map_cons, List.mem_cons] at hq ⊢
      tauto
    · rw [if_neg h1] at hq
      by_cases h2 : w.user = k
      · rw [if_pos h2] at hq
        simp only [List.map_cons, List.mem_cons] at hq ⊢
        tauto
      · rw [if_neg h2] at hq
        simp only [List.map_cons, List.mem_cons] at hq ⊢
        rcases hq with hq | hq
        · tauto
        · rcases ih hq with h | h <;> tauto

theorem insertWatch_sorted (m : List (String × HistoryItem)) (w : HistoryItem)
    (h : SortedKeys m) : SortedKeys (insertWatch m w) := by
  induction m with
  | nil => simp [insertWatch, SortedKeys]
  | cons p rest ih =>
    obtain ⟨k, v⟩ := p
    rw [SortedKeys, List.pairwise_cons] at h
    obtain ⟨hk, hrest⟩ := h
    simp only [insertWatch]
    by_cases h1 : strLtB w.user k
    · have hwk : w.user < k := (strLtB_iff w.user k).mp h1
      rw [if_pos h1, SortedKeys, List.pairwise_cons]
      constructor
      · intro p hp
        rcases List.mem_cons.mp hp with rfl | hp
        · exact hwk
        · exact lt_trans hwk (hk p hp)
      · rw [List.pairwise_cons]
        exact ⟨hk, hrest⟩
    · rw [if_neg h1]
      by_cases h2 : w.user = k
      · rw [if_pos h2, SortedKeys, List.pairwise_cons]
        exact ⟨hk, hrest⟩
      · rw [if_neg h2, SortedKeys, List.pairwise_cons]
        constructor
        · intro p hp
          have hmem := keys_mem_insertWatch rest w p.1 (List.mem_map_of_mem Prod.fst hp)
          rcases hmem with hq | hq
          · rw [hq]
            rcases lt_trichotomy k w.user with h | h | h
            · exact h
            · exact absurd h.symm h2
            · exact absurd ((strLtB_iff w.user k).mpr h) (by simpa using h1)
          · obtain ⟨p', hp', hfst⟩ := List.mem_map.mp hq
            exact hfst ▸ hk p' hp'
        · exact ih hrest

theorem lookup_cons_self (u k : String) (v : HistoryItem)
    (rest : List (String × HistoryItem)) (h : u = k) :
    List.lookup u ((k, v) :: rest) = some v := by
  simp [List.lookup, beq_iff_eq, h]

theorem lookup_cons_ne (u k : String) (v : HistoryItem)
    (rest : List (String × HistoryItem)) (h : u ≠ k) :
    List.lookup u ((k, v) :: rest) = List.lookup u rest := by
  have hh : (u == k) = false := beq_eq_false_iff_ne.mpr h
  simp [List.lookup, hh]

theorem lookup_eq_none_of_forall (m : List (String × HistoryItem)) (u : String)
    (h : ∀ p ∈ m, p.1 ≠ u) : List.lookup u m = none := by
  induction m with
  | nil => rfl
  | cons p rest ih =>
    obtain ⟨k, v⟩ := p
    have hku : u ≠ k := fun hh => h (k, v) (List.mem_cons_self _ _) hh.symm
    rw [lookup_cons_ne u k v rest hku]
    exact ih (fun p hp => h p (List.mem_cons_of_mem _ hp))

theorem lookup_eq_none_of_sorted_lt (k : String) (v : HistoryItem)
    (rest : List (String × HistoryItem)) (u : String)
    (hsorted : SortedKeys ((k, v) :: rest)) (hu : u < k) :
    List.lookup u ((k, v) :: rest) = none := by
  obtain ⟨hk, _⟩ := List.pairwise_cons.mp hsorted
  apply lookup_eq_none_of_forall
  intro p hp
  rcases List.mem_cons.mp hp with rfl | hp
  · exact fun hh => absurd (hh ▸ hu) (lt_irrefl _)
  · have : k < p.1 := hk p hp
    exact fun hh => absurd (hh ▸ lt_trans hu this) (lt_irrefl _)

theorem lookup_insertWatch (m : List (String × HistoryItem)) (w : HistoryItem)
    (u : String) (hsorted : SortedKeys m) :
    List.lookup u (insertWatch m w) =
      if u = w.user then some (applyStep (List.lookup u m) w) else List.lookup u m := by
  induction m with
  | nil =>
    by_cases hu : u = w.user
    · rw [if_pos hu]
      show List.lookup u [(w.user, w)] = _
      rw [lookup_cons_self u w.user w [] hu]
      rfl
    · rw [if_neg hu]
      show List.lookup u [(w.user, w)] = _
      rw [lookup_cons_ne u w.user w [] hu]
  | cons p rest ih =>
    obtain ⟨k, v⟩ := p
    simp only [insertWatch]
    by_cases h1 : strLtB w.user k
    · have hwk : w.user < k := (strLtB_iff w.user k).mp h1
      rw [if_pos h1]
      by_cases hu : u = w.user
      · have hlk : List.lookup u ((k, v) :: rest) = none :=
          lookup_eq_none_of_sorted_lt k v rest u hsorted (hu ▸ hwk)
        rw [if_pos hu, hlk, lookup_cons_self u w.user w _ hu]
        rfl
      · rw [if_neg hu, lookup_cons_ne u w.user w _ hu]
    · rw [if_neg h1]
      obtain ⟨hk, hrest⟩ := List.pairwise_cons.mp hsorted
      by_cases h2 : w.user = k
      · rw [if_pos h2]
        by_cases hu : u = k
        · rw [lookup_cons_self u k _ rest hu, if_pos (hu.trans h2.symm),
            lookup_cons_self u k v rest hu]
          rfl
        · rw [lookup_cons_ne u k _ rest hu, if_neg (fun hh : u = w.user => hu (hh.trans h2)),
            lookup_cons_ne u k v rest hu]
      · rw [if_neg h2]
        by_cases hu : u = k
        · have huw : ¬ u = w.user := fun hh => h2 (hh ▸ hu : w.user = k)
          rw [lookup_cons_self u k v _ hu, if_neg huw, lookup_cons_self u k v rest hu]
        · rw [lookup_cons_ne u k v _ hu, lookup_cons_ne u k v rest hu, ih hrest]

theorem foldl_insertWatch_sorted (data : List HistoryItem)
    (m : List (String × HistoryItem)) (hsorted : SortedKeys m) :
    SortedKeys (data.foldl insertWatch m) := by
  induction data generalizing m with
  | nil => exact hsorted
  | cons x xs ih => exact ih (insertWatch m x) (insertWatch_sorted m x hsorted)

theorem latest_user_history_sorted (data : List HistoryItem) :
    SortedKeys (latest_user_history data) :=
  foldl_insertWatch_sorted data [] (List.Pairwise.nil)

theorem lookup_foldl_insertWatch (data : List HistoryItem)
    (m : List (String × HistoryItem)) (u : String) (hsorted : SortedKeys m) :
    List.lookup u (data.foldl insertWatch m) =
      data.foldl (step1 u) (List.lookup u m) := by
  induction data generalizing m with
  | nil => rfl
  | cons x xs ih =>
    show List.lookup u (xs.foldl insertWatch (insertWatch m x)) =
      List.foldl (step1 u) (List.lookup u m) (x :: xs)
    rw [List.foldl_cons, ih (insertWatch m x) (insertWatch_sorted m x hsorted)]
    congr 1
    rw [lookup_insertWatch m x u hsorted]
    simp only [step1]
    by_cases hu : u = x.user
    · rw [if_pos hu, if_pos hu.symm]
    · rw [if_neg hu, if_neg (fun hh => hu hh.symm)]

theorem lookup_latest (data : List HistoryItem) (u : String) :
    List.lookup u (latest_user_history data) = latestOf u data :=
  lookup_foldl_insertWatch data [] u (List.Pairwise.nil)

theorem applyStep_date_left (c x : HistoryItem) : c.date ≤ (applyStep (some c) x).date := by
  simp only [applyStep]
  by_cases h : c.date < x.date
  · rw [if_pos h]; exact le_of_lt h
  · rw [if_neg h]

theorem applyStep_date_right (acc : Option HistoryItem) (x : HistoryItem) :
    x.date ≤ (applyStep acc x).date := by
  cases acc with
  | none => exact le_refl _
  | some c =>
    simp only [applyStep]
    by_cases h : c.date < x.date
    · rw [if_pos h]
    · rw [if_neg h]; exact not_lt.mp h

theorem foldl_step1_max (u : String) (data : List HistoryItem) :
    ∀ (acc : Option HistoryItem) (e : HistoryItem),
      List.foldl (step1 u) acc data = some e →
      (acc = some e ∨ (e ∈ data ∧ e.user = u)) ∧
      (∀ c, acc = some c → c.date ≤ e.date) ∧
      (∀ e' ∈ data, e'.user = u → e'.date ≤ e.date) := by
  induction data with
  | nil =>
    intro acc e hfold
    have hacc : acc = some e := hfold
    refine ⟨Or.inl hacc, ?_, ?_⟩
    · intro c hc
      rw [hacc] at hc
      have he : e = c := Option.some.inj hc
      rw [← he]
    · intro e' he'
      exact absurd he' (List.not_mem_nil e')
  | cons x xs ih =>
    intro acc e hfold
    rw [List.foldl_cons] at hfold
    obtain ⟨hA, hB, hC⟩ := ih (step1 u acc x) e hfold
    have hstep_date : ∀ c, acc = some c → c.date ≤ e.date := by
      intro c hc
      subst hc
      simp only [step1] at hB
      by_cases hx : x.user = u
      · have := hB (applyStep (some c) x) (by rw [if_pos hx])
        exact le_trans (applyStep_date_left c x) this
      · exact hB c (by rw [if_neg hx])
    have hx_date : x.user = u → x.date ≤ e.date := by
      intro hx
      have := hB (applyStep acc x) (by simp only [step1]; rw [if_pos hx])
      exact le_trans (applyStep_date_right acc x) this
    refine ⟨?_, hstep_date, ?_⟩
    · rcases hA with hA | hA
      · simp only [step1] at hA
        by_cases hx : x.user = u
        · rw [if_pos hx] at hA
          have he : applyStep acc x = e := Option.some.inj hA
          cases acc with
          | none =>
            refine Or.inr ⟨?_, ?_⟩
            · rw [← he]; exact List.mem_cons_self x xs
            · rw [← he]; exact hx
          | some c =>
            by_cases hcx : c.date < x.date
            · have hex : x = e := by
                simpa only [applyStep, if_pos hcx] using he
              refine Or.inr ⟨?_, ?_⟩
              · rw [← hex]; exact List.mem_cons_self x xs
              · rw [← hex]; exact hx
            · have hec : c = e := by
                simpa only [applyStep, if_neg hcx] using he
              exact Or.inl (by rw [hec])
        · rw [if_neg hx] at hA
          exact Or.inl hA
      · exact Or.inr ⟨List.mem_cons_of_mem x hA.1, hA.2⟩
    · intro e' he' hu'
      rcases List.mem_cons.mp he' with rfl | he'
      · exact hx_date hu'
      · exact hC e' he' hu'

theorem latestOf_max (u : String) (data : List HistoryItem) (e : HistoryItem)
    (h : latestOf u data = some e) :
    e ∈ data ∧ e.user = u ∧ ∀ e' ∈ data, e'.user = u → e'.date ≤ e.date := by
  obtain ⟨hA, _, hC⟩ := foldl_step1_max u data none e h
  rcases hA with hA | hA
  · exact absurd hA (by simp)
  · exact ⟨hA.1, hA.2, hC⟩

theorem foldl_step1_first (u : String) (data : List HistoryItem) :
    ∀ (acc : Option HistoryItem) (e : HistoryItem),
      List.foldl (step1 u) acc data = some e →
      acc = some e ∨
      ∃ l1 l2, data = l1 ++ e :: l2 ∧ e.user = u ∧
        (∀ x ∈ l1, x.user = u → x.date < e.date) ∧
        (acc = none ∨ ∃ c, acc = some c ∧ c.date < e.date) := by
  induction data with
  | nil =>
    intro acc e hfold
    exact Or.inl hfold
  | cons x xs ih =>
    intro acc e hfold
    rw [List.foldl_cons] at hfold
    rcases ih (step1 u acc x) e hfold with hA | ⟨l1, l2, hsplit, hu, hlt, hacc⟩
    · simp only [step1] at hA
      by_cases hx : x.user = u
      · rw [if_pos hx] at hA
        have he : applyStep acc x = e := Option.some.inj hA
        cases acc with
        | none =>
          have hex : x = e := he
          refine Or.inr ⟨[], xs, by rw [hex]; rfl, by rw [← hex]; exact hx, ?_, Or.inl rfl⟩
          intro y hy
          exact absurd hy (List.not_mem_nil y)
        | some c =>
          by_cases hcx : c.date < x.date
          · have hex : x = e := by
              simpa only [applyStep, if_pos hcx] using he
            refine Or.inr ⟨[], xs, by rw [hex]; rfl, by rw [← hex]; exact hx, ?_, ?_⟩
            · intro y hy
              exact absurd hy (List.not_mem_nil y)
            · exact Or.inr ⟨c, rfl, hex ▸ hcx⟩
          · have hec : c = e := by
              simpa only [applyStep, if_neg hcx] using he
            exact Or.inl (by rw [hec])
      · rw [if_neg hx] at hA
        exact Or.inl hA
    · refine Or.inr ⟨x :: l1, l2, by rw [List.cons_append, hsplit], hu, ?_, ?_⟩
      · intro y hy hyu
        rcases List.mem_cons.mp hy with rfl | hy
        · have hstep : step1 u acc y = some (applyStep acc y) := by
            simp only [step1]; rw [if_pos hyu]
          rcases hacc with hnone | ⟨c, hc, hcd⟩
          · rw [hstep] at hnone
            exact absurd hnone (by simp)
          · rw [hstep] at hc
            have : applyStep acc y = c := Option.some.inj hc
            exact lt_of_le_of_lt (this ▸ applyStep_date_right acc y) hcd
        · exact hlt y hy hyu
      · cases acc with
        | none => exact Or.inl rfl
        | some c =>
          refine Or.inr ⟨c, rfl, ?_⟩
          have hcd : ∀ c', step1 u (some c) x = some c' → c.date ≤ c'.date := by
            intro c' hc'
            simp only [step1] at hc'
            by_cases hx : x.user = u
            · rw [if_pos hx] at hc'
              have : applyStep (some c) x = c' := Option.some.inj hc'
              exact this ▸ applyStep_date_left c x
            · rw [if_neg hx] at hc'
              have : c = c' := Option.some.inj hc'
              exact this ▸ le_refl _
          rcases hacc with hnone | ⟨c₀, hc₀, hcd₀⟩
          · exfalso
            simp only [step1] at hnone
            by_cases hx : x.user = u
            · rw [if_pos hx] at hnone; exact Option.noConfusion hnone
            · rw [if_neg hx] at hnone; exact Option.noConfusion hnone
          · exact lt_of_le_of_lt (hcd c₀ hc₀) hcd₀

theorem foldl_step1_none (u : String) (data : List HistoryItem) :
    ∀ acc : Option HistoryItem,
      List.foldl (step1 u) acc data = none ↔
      acc = none ∧ ∀ e ∈ data, e.user ≠ u := by
  induction data with
  | nil =>
    intro acc
    constructor
    · intro h
      exact ⟨h, fun e he => absurd he (List.not_mem_nil e)⟩
    · intro h
      exact h.1
  | cons x xs ih =>
    intro acc
    rw [List.foldl_cons, ih (step1 u acc x)]
    constructor
    · rintro ⟨hstep, hxs⟩
      simp only [step1] at hstep
      by_cases hx : x.user = u
      · rw [if_pos hx] at hstep
        exact absurd hstep (by simp)
      · rw [if_neg hx] at hstep
        refine ⟨hstep, ?_⟩
        intro e he
        rcases List.mem_cons.mp he with rfl | he
        · exact hx
        · exact hxs e he
    · rintro ⟨hacc, hall⟩
      have hx : x.user ≠ u := hall x (List.mem_cons_self x xs)
      refine ⟨?_, fun e he => hall e (List.mem_cons_of_mem x he)⟩
      simp only [step1]
      rw [if_neg hx]
      exact hacc

theorem latestOf_eq_none_iff (u : String) (data : List HistoryItem) :
    latestOf u data = none ↔ ∀ e ∈ data, e.user ≠ u := by
  rw [latestOf, foldl_step1_none u data none]
  simp

theorem latestOf_isSome_iff (u : String) (data : List HistoryItem) :
    (∃ e, latestOf u data = some e) ↔ ∃ e ∈ data, e.user = u := by
  constructor
  · rintro ⟨e, he⟩
    obtain ⟨hmem, hu, _⟩ := latestOf_max u data e he
    exact ⟨e, hmem, hu⟩
  · rintro ⟨e, he, hu⟩
    cases hlat : latestOf u data with
    | none => exact absurd hu ((latestOf_eq_none_iff u data).mp hlat e he)
    | some r => exact ⟨r, rfl⟩

/-! ## Inversion of Except binds and of collectMap -/

theorem bind_error_eq {ε α β : Type} (e : ε) (f : α → Except ε β) :
    (Except.error e >>= f) = (Except.error e : Except ε β) := rfl

theorem bind_ok_eq {ε α β : Type} (a : α) (f : α → Except ε β) :
    (Except.ok a >>= f) = f a := rfl

theorem except_bind_ok {ε α β : Type} (x : Except ε α) (f : α → Except ε β) (b : β)
    (h : (x >>= f) = Except.ok b) : ∃ a, x = Except.ok a ∧ f a = Except.ok b := by
  cases x with
  | error e => rw [bind_error_eq] at h; exact Except.noConfusion h
  | ok a => exact ⟨a, rfl, (bind_ok_eq a f) ▸ h⟩

theorem except_bind_error {ε α β : Type} (x : Except ε α) (f : α → Except ε β) (e : ε)
    (h : (x >>= f) = Except.error e) :
    x = Except.error e ∨ ∃ a, x = Except.ok a ∧ f a = Except.error e := by
  cases x with
  | error e' =>
    rw [bind_error_eq] at h
    have he : e' = e := Except.error.inj h
    exact Or.inl (by rw [he])
  | ok a => exact Or.inr ⟨a, rfl, (bind_ok_eq a f) ▸ h⟩

theorem collectMap_ok_inv {α β : Type} (f : α → Except String β) :
    ∀ (l : List α) (ws : List β), collectMap f l = Except.ok ws →
      ∃ ys : List (α × β), l = ys.map Prod.fst ∧ ws = ys.map Prod.snd ∧
        ∀ p ∈ ys, f p.1 = Except.ok p.2 := by
  intro l
  induction l with
  | nil =>
    intro ws h
    have hws : ([] : List β) = ws := Except.ok.inj h
    exact ⟨[], rfl, by rw [← hws]; rfl, fun p hp => absurd hp (List.not_mem_nil p)⟩
  | cons x xs ih =>
    intro ws h
    obtain ⟨y, hy, h2⟩ := except_bind_ok (f x) _ ws h
    obtain ⟨ys', hys', h3⟩ := except_bind_ok (collectMap f xs) _ ws h2
    have hws : y :: ys' = ws := Except.ok.inj h3
    obtain ⟨ps, hl, hw, hall⟩ := ih ys' hys'
    refine ⟨(x, y) :: ps, ?_, ?_, ?_⟩
    · rw [List.map_cons, ← hl]
    · rw [← hws, List.map_cons, ← hw]
    · intro p hp
      rcases List.mem_cons.mp hp with rfl | hp
      · exact hy
      · exact hall p hp

theorem collectMap_error_inv {α β : Type} (f : α → Except String β) :
    ∀ (l : List α) (e : String), collectMap f l = Except.error e →
      ∃ x ∈ l, f x = Except.error e := by
  intro l
  induction l with
  | nil =>
    intro e h
    exact Except.noConfusion h
  | cons x xs ih =>
    intro e h
    rcases except_bind_error (f x) _ e h with hx | ⟨y, _, h2⟩
    · exact ⟨x, List.mem_cons_self x xs, hx⟩
    · rcases except_bind_error (collectMap f xs) _ e h2 with hxs | ⟨ys, _, h3⟩
      · obtain ⟨x', hx', hfx'⟩ := ih e hxs
        exact ⟨x', List.mem_cons_of_mem x hx', hfx'⟩
      · exact Except.noConfusion h3

/-! ## What the projection closures can return -/

theorem usd_trichotomy (s : Int) :
    (∃ d, unix_seconds_to_date s = Except.ok (some d)) ∨
    unix_seconds_to_date s = Except.error unwrapPanicMsg ∨
    unix_seconds_to_date s = Except.error mulOverflowPanicMsg := by
  rw [unix_seconds_to_date]
  by_cases h1 : I64_MIN ≤ s * 1000 ∧ s * 1000 ≤ I64_MAX
  · rw [if_pos h1, from_timestamp_millis]
    by_cases h2 : NAIVE_MIN_MILLIS ≤ s * 1000 ∧ s * 1000 ≤ NAIVE_MAX_MILLIS
    · rw [if_pos h2]
      exact Or.inl ⟨s * 1000, rfl⟩
    · rw [if_neg h2]
      exact Or.inr (Or.inl rfl)
  · rw [if_neg h1]
    exact Or.inr (Or.inr rfl)

theorem usd_ok_some (s : Int) (r : Option Int)
    (h : unix_seconds_to_date s = Except.ok r) : ∃ d, r = some d := by
  rcases usd_trichotomy s with ⟨d, hd⟩ | hd | hd
  · rw [hd] at h
    exact ⟨d, (Except.ok.inj h).symm⟩
  · rw [hd] at h
    exact Except.noConfusion h
  · rw [hd] at h
    exact Except.noConfusion h

theorem expectOpt_ok {α : Type} (o : Option α) (msg : String) (a : α)
    (h : expectOpt o msg = Except.ok a) : o = some a := by
  cases o with
  | none => exact Except.noConfusion h
  | some b => exact congrArg some (Except.ok.inj h)

theorem unwrapOpt_ok {α : Type} (o : Option α) (a : α)
    (h : unwrapOpt o = Except.ok a) : o = some a := by
  cases o with
  | none => exact Except.noConfusion h
  | some b => exact congrArg some (Except.ok.inj h)

theorem unwrapOpt_none {α : Type} : unwrapOpt (none : Option α) = Except.error unwrapPanicMsg :=
  rfl

theorem movie_watch_of_ok (rk : String) (p : String × HistoryItem) (w : UserMovieWatch)
    (h : movie_watch_of rk p = Except.ok w) :
    w.display_name = p.1 ∧ w.progress = p.2.percent_complete := by
  obtain ⟨d, _, h2⟩ := except_bind_ok _ _ _ h
  obtain ⟨lw, _, h3⟩ := except_bind_ok _ _ _ h2
  have hw : _ = w := Except.ok.inj h3
  rw [← hw]
  exact ⟨rfl, rfl⟩

theorem episode_watch_of_ok (rk : String) (p : String × HistoryItem) (w : UserEpisodeWatch)
    (h : episode_watch_of rk p = Except.ok w) :
    w.display_name = p.1 ∧ w.progress = p.2.percent_complete ∧
    p.2.parent_media_index = some w.season ∧ p.2.media_index = some w.episode := by
  obtain ⟨d, _, h2⟩ := except_bind_ok _ _ _ h
  obtain ⟨lw, _, h3⟩ := except_bind_ok _ _ _ h2
  obtain ⟨season, hs, h4⟩ := except_bind_ok _ _ _ h3
  obtain ⟨episode, he, h5⟩ := except_bind_ok _ _ _ h4
  have hw : _ = w := Except.ok.inj h5
  rw [← hw]
  exact ⟨rfl, rfl, unwrapOpt_ok _ _ hs, unwrapOpt_ok _ _ he⟩

theorem movie_watch_of_error (rk : String) (p : String × HistoryItem) (e : String)
    (h : movie_watch_of rk p = Except.error e) :
    e = unwrapPanicMsg ∨ e = mulOverflowPanicMsg := by
  rcases except_bind_error _ _ _ h with h1 | ⟨d, hd, h2⟩
  · rcases usd_trichotomy p.2.date with ⟨d, hd⟩ | hd | hd
    · rw [hd] at h1
      exact Except.noConfusion h1
    · rw [hd] at h1
      exact Or.inl (Except.error.inj h1).symm
    · rw [hd] at h1
      exact Or.inr (Except.error.inj h1).symm
  · rcases except_bind_error _ _ _ h2 with h3 | ⟨lw, _, h4⟩
    · obtain ⟨d', hd'⟩ := usd_ok_some _ _ hd
      rw [hd'] at h3
      exact Except.noConfusion h3
    · exact Except.noConfusion h4

theorem episode_watch_of_error (rk : String) (p : String × HistoryItem) (e : String)
    (h : episode_watch_of rk p = Except.error e) :
    e = unwrapPanicMsg ∨ e = mulOverflowPanicMsg := by
  rcases except_bind_error _ _ _ h with h1 | ⟨d, hd, h2⟩
  · rcases usd_trichotomy p.2.date with ⟨d, hd⟩ | hd | hd
    · rw [hd] at h1
      exact Except.noConfusion h1
    · rw [hd] at h1
      exact Or.inl (Except.error.inj h1).symm
    · rw [hd] at h1
      exact Or.inr (Except.error.inj h1).symm
  · rcases except_bind_error _ _ _ h2 with h3 | ⟨lw, _, h4⟩
    · obtain ⟨d', hd'⟩ := usd_ok_some _ _ hd
      rw [hd'] at h3
      exact Except.noConfusion h3
    · rcases except_bind_error _ _ _ h4 with h5 | ⟨season, _, h6⟩
      · cases hp : p.2.parent_media_index with
        | none =>
          rw [hp] at h5
          exact Or.inl (Except.error.inj h5).symm
        | some s =>
          rw [hp] at h5
          exact Except.noConfusion h5
      · rcases except_bind_error _ _ _ h6 with h7 | ⟨episode, _, h8⟩
        · cases hp : p.2.media_index with
          | none =>
            rw [hp] at h7
            exact Or.inl (Except.error.inj h7).symm
          | some s =>
            rw [hp] at h7
            exact Except.noConfusion h7
        · exact Except.noConfusion h8

theorem episode_watch_of_not_ok (rk : String) (p : String × HistoryItem)
    (hmiss : p.2.parent_media_index = none ∨ p.2.media_index = none)
    (w : UserEpisodeWatch) : episode_watch_of rk p ≠ Except.ok w := by
  intro h
  obtain ⟨_, _, hps, hpe⟩ := episode_watch_of_ok rk p w h
  rcases hmiss with hm | hm
  · rw [hm] at hps
    exact Option.noConfusion hps
  · rw [hm] at hpe
    exact Option.noConfusion hpe

/-- The per-viewer display names of a result, in output order. -/
def summaryNames : WatchHistory → List String
  | WatchHistory.Movie i => i.watches.map (fun w => w.display_name)
  | WatchHistory.TvShow i => i.watches.map (fun w => w.display_name)

theorem create_movie_history_ok (uw : List (String × HistoryItem)) (rk : String)
    (res : WatchHistory) (h : create_movie_history uw rk = Except.ok res) :
    summaryNames res = uw.map Prod.fst ∧
    ∃ i, res = WatchHistory.Movie i ∧ i.rating_key = rk := by
  obtain ⟨ws, hws, h2⟩ := except_bind_ok _ _ _ h
  have hres : WatchHistory.Movie { rating_key := rk, watches := ws } = res :=
    Except.ok.inj h2
  obtain ⟨ys, hl, hw, hall⟩ := collectMap_ok_inv _ uw ws hws
  constructor
  · rw [← hres]
    show ws.map (fun w => w.display_name) = uw.map Prod.fst
    rw [hw, hl, List.map_map, List.map_map]
    apply List.map_congr_left
    intro p hp
    exact (movie_watch_of_ok rk p.1 p.2 (hall p hp)).1
  · exact ⟨_, hres.symm, rfl⟩

theorem create_tv_history_ok (uw : List (String × HistoryItem)) (rk : String)
    (res : WatchHistory) (h : create_tv_history uw rk = Except.ok res) :
    summaryNames res = uw.map Prod.fst ∧
    ∃ i, res = WatchHistory.TvShow i ∧ i.rating_key = rk := by
  obtain ⟨ws, hws, h2⟩ := except_bind_ok _ _ _ h
  have hres : WatchHistory.TvShow { rating_key := rk, watches := ws } = res :=
    Except.ok.inj h2
  obtain ⟨ys, hl, hw, hall⟩ := collectMap_ok_inv _ uw ws hws
  constructor
  · rw [← hres]
    show ws.map (fun w => w.display_name) = uw.map Prod.fst
    rw [hw, hl, List.map_map, List.map_map]
    apply List.map_congr_left
    intro p hp
    exact (episode_watch_of_ok rk p.1 p.2 (hall p hp)).1
  · exact ⟨_, hres.symm, rfl⟩

theorem from_user_watches_ok_names (uw : List (String × HistoryItem)) (rk : String)
    (kind : MediaType) (res : WatchHistory)
    (h : from_user_watches uw kind rk = Except.ok res) :
    summaryNames res = uw.map Prod.fst := by
  cases kind with
  | Movie => exact (create_movie_history_ok uw rk res h).1
  | Tv => exact (create_tv_history_ok uw rk res h).1

/-! ## The keys of the per-user map -/

theorem mem_map_fst_iff_lookup (m : List (String × HistoryItem)) (u : String) :
    u ∈ m.map Prod.fst ↔ ∃ v, List.lookup u m = some v := by
  induction m with
  | nil =>
    simp [List.lookup]
  | cons p rest ih =>
    obtain ⟨k, v⟩ := p
    by_cases hu : u = k
    · rw [lookup_cons_self u k v rest hu]
      simp [hu]
    · rw [lookup_cons_ne u k v rest hu]
      simp only [List.map_cons, List.mem_cons]
      rw [← ih]
      constructor
      · intro h
        rcases h with h | h
        · exact absurd h hu
        · exact h
      · exact Or.inr

theorem latest_keys_mem (data : List HistoryItem) (u : String) :
    u ∈ (latest_user_history data).map Prod.fst ↔ ∃ e ∈ data, e.user = u := by
  rw [mem_map_fst_iff_lookup]
  constructor
  · rintro ⟨v, hv⟩
    rw [lookup_latest] at hv
    exact (latestOf_isSome_iff u data).mp ⟨v, hv⟩
  · intro h
    obtain ⟨e, he⟩ := (latestOf_isSome_iff u data).mpr h
    exact ⟨e, by rw [lookup_latest]; exact he⟩

theorem latest_keys_sorted (data : List HistoryItem) :
    List.Pairwise (fun a b : String => a < b) ((latest_user_history data).map Prod.fst) :=
  (List.pairwise_map).mpr (latest_user_history_sorted data)

theorem latest_keys_nodup (data : List HistoryItem) :
    ((latest_user_history data).map Prod.fst).Nodup :=
  (latest_keys_sorted data).imp (fun h => ne_of_lt h)

theorem latest_keys_perm_invariant (data data' : List HistoryItem)
    (hperm : data.Perm data') :
    (latest_user_history data).map Prod.fst = (latest_user_history data').map Prod.fst := by
  haveI : IsAntisymm String (fun a b : String => a < b) :=
    ⟨fun a b h1 h2 => absurd h2 (lt_asymm h1)⟩
  apply List.eq_of_perm_of_sorted ?_ (latest_keys_sorted data) (latest_keys_sorted data')
  rw [List.perm_ext_iff_of_nodup (latest_keys_nodup data) (latest_keys_nodup data')]
  intro u
  rw [latest_keys_mem, latest_keys_mem]
  constructor
  · rintro ⟨e, he, hu⟩
    exact ⟨e, hperm.mem_iff.mp he, hu⟩
  · rintro ⟨e, he, hu⟩
    exact ⟨e, hperm.mem_iff.mpr he, hu⟩

theorem foldl_step1_skip (u : String) (l : List HistoryItem)
    (h : ∀ x ∈ l, x.user ≠ u) : ∀ acc, List.foldl (step1 u) acc l = acc := by
  induction l with
  | nil => intro acc; rfl
  | cons x xs ih =>
    intro acc
    rw [List.foldl_cons]
    have hstep : step1 u acc x = acc := by
      simp only [step1]
      rw [if_neg (h x (List.mem_cons_self x xs))]
    rw [hstep]
    exact ih (fun y hy => h y (List.mem_cons_of_mem x hy)) acc

/-! ## Claim theorems -/

/-- C1: for every input event list, the event retained for each viewer by
the aggregation in `get_item_watches` is one of that viewer's events and
has `watched_at` (field `date`) greater than or equal to the `watched_at`
of every other event for that same viewer in the input. -/
theorem retained_watch_is_latest (data : List HistoryItem) (u : String) (e : HistoryItem)
    (h : List.lookup u (latest_user_history data) = some e) :
    e ∈ data ∧ e.user = u ∧ ∀ e' ∈ data, e'.user = u → e'.date ≤ e.date := by
  rw [lookup_latest] at h
  exact latestOf_max u data e h

/-- Witness for C1 at a concrete input: for the three-event list of the
spec's scenario the event retained for viewer \x22a\x22 is the one with
date 200. -/
theorem retained_watch_is_latest_witness :
    List.lookup "a" (latest_user_history
      [⟨"a", 100, 10, 50, none, none⟩, ⟨"a", 200, 10, 90, none, none⟩,
       ⟨"b", 150, 10, 10, none, none⟩]) = some ⟨"a", 200, 10, 90, none, none⟩ ∧
    ((⟨"a", 200, 10, 90, none, none⟩ : HistoryItem) ∈
      [⟨"a", 100, 10, 50, none, none⟩, ⟨"a", 200, 10, 90, none, none⟩,
       ⟨"b", 150, 10, 10, none, none⟩] ∧
     (⟨"a", 200, 10, 90, none, none⟩ : HistoryItem).user = "a" ∧
     ∀ e' ∈ [⟨"a", 100, 10, 50, none, none⟩, ⟨"a", 200, 10, 90, none, none⟩,
       (⟨"b", 150, 10, 10, none, none⟩ : HistoryItem)], e'.user = "a" →
       e'.date ≤ (⟨"a", 200, 10, 90, none, none⟩ : HistoryItem).date) :=
  ⟨rfl, retained_watch_is_latest _ "a" _ rfl⟩

/-- C2: the retained event for a viewer occurs in the input, every earlier
event of the same viewer has a strictly smaller `watched_at`, and every
later event of the same viewer has a `watched_at` less than or equal to the
retained one; hence an event whose `watched_at` equals the retained one
never replaces it, and the first-encountered event is retained among
ties. -/
theorem tie_break_first_wins (data : List HistoryItem) (u : String) (e : HistoryItem)
    (h : List.lookup u (latest_user_history data) = some e) :
    ∃ l1 l2, data = l1 ++ e :: l2 ∧ e.user = u ∧
      (∀ x ∈ l1, x.user = u → x.date < e.date) ∧
      (∀ x ∈ l2, x.user = u → x.date ≤ e.date) := by
  rw [lookup_latest] at h
  rcases foldl_step1_first u data none e h with hA | ⟨l1, l2, hsplit, hu, hlt, _⟩
  · exact absurd hA (by simp)
  · obtain ⟨_, _, hmax⟩ := latestOf_max u data e h
    refine ⟨l1, l2, hsplit, hu, hlt, ?_⟩
    intro x hx hxu
    refine hmax x ?_ hxu
    rw [hsplit]
    exact List.mem_append_right l1 (List.mem_cons_of_mem e hx)

/-- Witness for C2 at a concrete input: two events of viewer \x22a\x22 with
the same date 100; the first one is retained, splitting the list as
`[] ++ first :: [second]`. -/
theorem tie_break_first_wins_witness :
    List.lookup "a" (latest_user_history
      [⟨"a", 100, 10, 50, none, none⟩, ⟨"a", 100, 10, 90, none, none⟩]) =
      some ⟨"a", 100, 10, 50, none, none⟩ ∧
    (∃ l1 l2, [⟨"a", 100, 10, 50, none, none⟩, ⟨"a", 100, 10, 90, none, none⟩] =
        l1 ++ (⟨"a", 100, 10, 50, none, none⟩ : HistoryItem) :: l2 ∧
      (⟨"a", 100, 10, 50, none, none⟩ : HistoryItem).user = "a" ∧
      (∀ x ∈ l1, x.user = "a" → x.date < (⟨"a", 100, 10, 50, none, none⟩ : HistoryItem).date) ∧
      (∀ x ∈ l2, x.user = "a" → x.date ≤ (⟨"a", 100, 10, 50, none, none⟩ : HistoryItem).date)) :=
  ⟨rfl, tie_break_first_wins _ "a" _ rfl⟩

/-- C3 as stated is false on the code: for two events of viewer \x22a\x22
with equal `watched_at`, the aggregation retains the FIRST one in traversal
order, not the later one. -/
theorem tie_break_last_wins_false :
    List.lookup "a" (latest_user_history
      [⟨"a", 100, 10, 50, none, none⟩, ⟨"a", 100, 10, 90, none, none⟩]) =
      some ⟨"a", 100, 10, 50, none, none⟩ ∧
    (⟨"a", 100, 10, 50, none, none⟩ : HistoryItem) ≠ ⟨"a", 100, 10, 90, none, none⟩ := by
  exact ⟨rfl, by decide⟩

/-- C3, amended: ties on `watched_at` are broken by
first-one-encountered-wins: in a list whose only two events of viewer `u`
have equal dates, the aggregation retains the earlier one in traversal
order. -/
theorem tie_break_earliest_wins (l1 l2 l3 : List HistoryItem) (e e' : HistoryItem)
    (u : String) (h1 : e.user = u) (h2 : e'.user = u) (hd : e.date = e'.date)
    (hothers : ∀ x : HistoryItem, (x ∈ l1 ∨ x ∈ l2 ∨ x ∈ l3) → x.user ≠ u) :
    List.lookup u (latest_user_history (l1 ++ e :: (l2 ++ e' :: l3))) = some e := by
  rw [lookup_latest]
  show List.foldl (step1 u) none (l1 ++ e :: (l2 ++ e' :: l3)) = some e
  rw [List.foldl_append,
    foldl_step1_skip u l1 (fun x hx => hothers x (Or.inl hx)) none, List.foldl_cons]
  have hstep1 : step1 u none e = some e := by
    simp only [step1]
    rw [if_pos h1]
    rfl
  rw [hstep1, List.foldl_append,
    foldl_step1_skip u l2 (fun x hx => hothers x (Or.inr (Or.inl hx))) (some e),
    List.foldl_cons]
  have hstep2 : step1 u (some e) e' = some e := by
    simp only [step1]
    rw [if_pos h2]
    show some (applyStep (some e) e') = some e
    simp only [applyStep]
    rw [if_neg (by rw [hd]; exact lt_irrefl _)]
  rw [hstep2, foldl_step1_skip u l3 (fun x hx => hothers x (Or.inr (Or.inr hx))) (some e)]

/-- Witness for the amended C3 at a concrete input: the two-event tie list
retains the earlier event. -/
theorem tie_break_earliest_wins_witness :
    List.lookup "a" (latest_user_history
      ([] ++ (⟨"a", 100, 10, 50, none, none⟩ : HistoryItem) ::
        ([] ++ (⟨"a", 100, 10, 90, none, none⟩ : HistoryItem) :: []))) =
      some ⟨"a", 100, 10, 50, none, none⟩ :=
  tie_break_earliest_wins [] [] [] _ _ "a" rfl rfl rfl
    (fun x hx => by rcases hx with hx | hx | hx <;> exact absurd hx (List.not_mem_nil x))

/-- C4: for every successful call, the summaries in the result of
`get_item_watches` are ordered ascending by lexicographic `viewer_id`
(display name), and the sequence of viewer ids in the output is the same
for every permutation of the input event list. -/
theorem output_order_sorted_and_perm_invariant (h h' : History) (rk : String)
    (kind : MediaType) (res res' : WatchHistory)
    (hperm : h.data.Perm h'.data)
    (hok : get_item_watches_core h rk kind = Except.ok res)
    (hok' : get_item_watches_core h' rk kind = Except.ok res') :
    List.Pairwise (fun a b : String => a < b) (summaryNames res) ∧
    summaryNames res = summaryNames res' := by
  have hok2 : from_user_watches (latest_user_history h.data) kind rk = Except.ok res := hok
  have hok2' : from_user_watches (latest_user_history h'.data) kind rk = Except.ok res' := hok'
  have h1 := from_user_watches_ok_names _ rk kind res hok2
  have h2 := from_user_watches_ok_names _ rk kind res' hok2'
  rw [h1, h2]
  exact ⟨latest_keys_sorted h.data, latest_keys_perm_invariant _ _ hperm⟩

/-- Witness for C4 at a concrete input: a three-event movie page and a
permutation of it produce summaries with the same viewer order
\x22a\x22, \x22b\x22. -/
theorem output_order_sorted_and_perm_invariant_witness :
    List.Pairwise (fun a b : String => a < b)
      (summaryNames (WatchHistory.Movie ⟨"rk1",
        [⟨"a", 200000, 90⟩, ⟨"b", 150000, 10⟩]⟩)) ∧
    summaryNames (WatchHistory.Movie ⟨"rk1",
        [⟨"a", 200000, 90⟩, ⟨"b", 150000, 10⟩]⟩) =
      summaryNames (WatchHistory.Movie ⟨"rk1",
        [⟨"a", 200000, 90⟩, ⟨"b", 150000, 10⟩]⟩) :=
  output_order_sorted_and_perm_invariant
    ⟨1, 3, 3, [⟨"a", 100, 10, 50, none, none⟩, ⟨"a", 200, 10, 90, none, none⟩,
      ⟨"b", 150, 10, 10, none, none⟩]⟩
    ⟨1, 3, 3, [⟨"b", 150, 10, 10, none, none⟩, ⟨"a", 200, 10, 90, none, none⟩,
      ⟨"a", 100, 10, 50, none, none⟩]⟩
    "rk1" MediaType.Movie _ _ (by decide) rfl rfl

/-- C5: for every successful call, the result of `get_item_watches`
contains at most one summary per viewer id (the display names are
pairwise distinct), and every display name is the viewer id of some input
event. -/
theorem at_most_one_summary_per_viewer (h : History) (rk : String) (kind : MediaType)
    (res : WatchHistory) (hok : get_item_watches_core h rk kind = Except.ok res) :
    (summaryNames res).Nodup ∧ ∀ n ∈ summaryNames res, ∃ e ∈ h.data, e.user = n := by
  have hok2 : from_user_watches (latest_user_history h.data) kind rk = Except.ok res := hok
  have hnames := from_user_watches_ok_names _ rk kind res hok2
  rw [hnames]
  exact ⟨latest_keys_nodup h.data, fun n hn => (latest_keys_mem h.data n).mp hn⟩

/-- Witness for C5 at a concrete input: the three-event movie page yields
distinct names \x22a\x22, \x22b\x22, each a viewer of the input. -/
theorem at_most_one_summary_per_viewer_witness :
    (summaryNames (WatchHistory.Movie ⟨"rk1",
      [⟨"a", 200000, 90⟩, ⟨"b", 150000, 10⟩]⟩)).Nodup ∧
    ∀ n ∈ summaryNames (WatchHistory.Movie ⟨"rk1",
      [⟨"a", 200000, 90⟩, ⟨"b", 150000, 10⟩]⟩),
      ∃ e ∈ (⟨1, 3, 3, [⟨"a", 100, 10, 50, none, none⟩,
        ⟨"a", 200, 10, 90, none, none⟩,
        ⟨"b", 150, 10, 10, none, none⟩]⟩ : History).data, e.user = n :=
  at_most_one_summary_per_viewer
    ⟨1, 3, 3, [⟨"a", 100, 10, 50, none, none⟩, ⟨"a", 200, 10, 90, none, none⟩,
      ⟨"b", 150, 10, 10, none, none⟩]⟩
    "rk1" MediaType.Movie _ rfl

/-- C9: a call of `get_item_watches` whose fetched history page has an
empty event list succeeds and returns a result with zero summaries, in the
variant selected by the supplied media kind and tagged with the supplied
item identifier. -/
theorem empty_history_ok (h : History) (rk : String) (kind : MediaType)
    (hempty : h.data = []) :
    get_item_watches_core h rk kind = Except.ok (match kind with
      | MediaType.Movie => WatchHistory.Movie { rating_key := rk, watches := [] }
      | MediaType.Tv => WatchHistory.TvShow { rating_key := rk, watches := [] }) := by
  show from_user_watches (latest_user_history h.data) kind rk = _
  rw [hempty]
  cases kind with
  | Movie => rfl
  | Tv => rfl

/-- Witness for C9 at a concrete input: the empty TV page yields the empty
TV result tagged \x22show7\x22. -/
theorem empty_history_ok_witness :
    get_item_watches_core ⟨0, 0, 0, []⟩ "show7" MediaType.Tv =
      Except.ok (WatchHistory.TvShow { rating_key := "show7", watches := [] }) :=
  empty_history_ok ⟨0, 0, 0, []⟩ "show7" MediaType.Tv rfl

/-- C6 is violated by the code: at the in-range 64-bit second count
9000000000000000 (whose millisecond value exceeds the chrono range), the
conversion does not succeed; `unix_seconds_to_date` panics internally via
`unwrap`, so `get_item_watches` aborts with the generic unwrap panic whose
message does not include the item identifier — the `.expect` that would
have attached the rating key is never reached. -/
theorem timestamp_conversion_failure_panics :
    unix_seconds_to_date 9000000000000000 = Except.error unwrapPanicMsg ∧
    create_movie_history [("a", ⟨"a", 9000000000000000, 10, 50, none, none⟩)] "item42" =
      Except.error unwrapPanicMsg ∧
    get_item_watches_core ⟨1, 1, 1, [⟨"a", 9000000000000000, 10, 50, none, none⟩]⟩
      "item42" MediaType.Movie = Except.error unwrapPanicMsg ∧
    ¬ ("item42".data <:+: unwrapPanicMsg.data) :=
  ⟨rfl, rfl, rfl, by decide⟩

/-- C7 as stated is false on the code: a TV event with an absent season
index reaching the projection makes the call fail, but with the generic
`Option::unwrap` panic, whose message does not carry the item identifier
\x22item42\x22. -/
theorem tv_missing_coordinates_counterexample :
    get_item_watches_core ⟨1, 1, 1, [⟨"a", 100, 10, 50, some 3, none⟩]⟩
      "item42" MediaType.Tv = Except.error unwrapPanicMsg ∧
    ¬ ("item42".data <:+: unwrapPanicMsg.data) :=
  ⟨rfl, by decide⟩

/-- C7, amended: for every TV-kind call, if a retained event reaches the
projection step with `season_index` or `episode_index` absent, the call
fails (the event is never projected into a summary with defaulted
season/episode values), but the failure is a panic whose message is one of
the two constant Rust panic messages, neither of which carries the item
identifier. -/
theorem tv_missing_coordinates_panics (h : History) (rk : String)
    (hmiss : ∃ p ∈ latest_user_history h.data,
      p.2.parent_media_index = none ∨ p.2.media_index = none) :
    get_item_watches_core h rk MediaType.Tv = Except.error unwrapPanicMsg ∨
    get_item_watches_core h rk MediaType.Tv = Except.error mulOverflowPanicMsg := by
  obtain ⟨p, hp, hpm⟩ := hmiss
  have hcore : get_item_watches_core h rk MediaType.Tv =
      (collectMap (episode_watch_of rk) (latest_user_history h.data) >>=
        fun watches => Except.ok
          (WatchHistory.TvShow { rating_key := rk, watches := watches })) := rfl
  cases hc : collectMap (episode_watch_of rk) (latest_user_history h.data) with
  | ok ws =>
    exfalso
    obtain ⟨ys, hl, _, hall⟩ := collectMap_ok_inv _ _ _ hc
    rw [hl] at hp
    obtain ⟨q, hq, hqp⟩ := List.mem_map.mp hp
    have hok : episode_watch_of rk p = Except.ok q.2 := by
      rw [← hqp]
      exact hall q hq
    exact episode_watch_of_not_ok rk p hpm q.2 hok
  | error e =>
    have herr : get_item_watches_core h rk MediaType.Tv = Except.error e := by
      rw [hcore, hc, bind_error_eq]
    rcases episode_watch_of_error rk _ e
        ((collectMap_error_inv _ _ _ hc).choose_spec.2) with he | he
    · rw [herr, he]
      exact Or.inl rfl
    · rw [herr, he]
      exact Or.inr rfl

/-- Witness for the amended C7 at a concrete input: a one-event TV page
whose event has no season index makes the call fail with one of the two
constant panic messages. -/
theorem tv_missing_coordinates_panics_witness :
    get_item_watches_core ⟨1, 1, 1, [⟨"a", 100, 10, 50, some 3, none⟩]⟩
      "show9" MediaType.Tv = Except.error unwrapPanicMsg ∨
    get_item_watches_core ⟨1, 1, 1, [⟨"a", 100, 10, 50, some 3, none⟩]⟩
      "show9" MediaType.Tv = Except.error mulOverflowPanicMsg :=
  tv_missing_coordinates_panics ⟨1, 1, 1, [⟨"a", 100, 10, 50, some 3, none⟩]⟩ "show9"
    ⟨("a", ⟨"a", 100, 10, 50, some 3, none⟩), by decide, Or.inl rfl⟩

/-- C8: the movie-history normalizer `history_movie_to_history` is a total
pure structural projection: it preserves `draw`, `records_total` and
`records_filtered`, maps the events in order with `user`, `date`,
`duration` and `percent_complete` unchanged, and every output event has
both episode indexes absent. -/
theorem history_movie_to_history_projection (h : HistoryMovie) :
    history_movie_to_history h =
      { draw := h.draw
        records_total := h.records_total
        records_filtered := h.records_filtered
        data := h.data.map (fun item =>
          { user := item.user
            date := item.date
            duration := item.duration
            percent_complete := item.percent_complete
            media_index := none
            parent_media_index := none : HistoryItem }) } ∧
    ∀ e ∈ (history_movie_to_history h).data,
      e.media_index = none ∧ e.parent_media_index = none := by
  refine ⟨rfl, ?_⟩
  intro e he
  simp only [history_movie_to_history, List.mem_map] at he
  obtain ⟨item, _, heq⟩ := he
  rw [← heq]
  exact ⟨rfl, rfl⟩

/-- C10: `unix_seconds_to_date` never returns `None`: it either returns
`Some` of a date or diverges with one of the two constant panic messages
(the internal `unwrap` on an out-of-range millisecond count, or the checked
multiplication overflow); consequently the error branch of the callers'
`.expect` — the only place the rating key would be attached — is
unreachable, and every failure of the projection carries one of the two
constant messages, not the item identifier. -/
theorem usd_never_returns_none :
    (∀ s : Int, (∃ d, unix_seconds_to_date s = Except.ok (some d)) ∨
      unix_seconds_to_date s = Except.error unwrapPanicMsg ∨
      unix_seconds_to_date s = Except.error mulOverflowPanicMsg) ∧
    (∀ (uw : List (String × HistoryItem)) (rk e : String),
      create_movie_history uw rk = Except.error e →
      e = unwrapPanicMsg ∨ e = mulOverflowPanicMsg) ∧
    (∀ (uw : List (String × HistoryItem)) (rk e : String),
      create_tv_history uw rk = Except.error e →
      e = unwrapPanicMsg ∨ e = mulOverflowPanicMsg) := by
  refine ⟨usd_trichotomy, ?_, ?_⟩
  · intro uw rk e h
    have h' : (collectMap (movie_watch_of rk) uw >>=
        fun watches => Except.ok
          (WatchHistory.Movie { rating_key := rk, watches := watches })) =
        Except.error e := h
    rcases except_bind_error _ _ _ h' with h1 | ⟨ws, _, h2⟩
    · obtain ⟨x, _, hfx⟩ := collectMap_error_inv _ _ _ h1
      exact movie_watch_of_error rk x e hfx
    · exact Except.noConfusion h2
  · intro uw rk e h
    have h' : (collectMap (episode_watch_of rk) uw >>=
        fun watches => Except.ok
          (WatchHistory.TvShow { rating_key := rk, watches := watches })) =
        Except.error e := h
    rcases except_bind_error _ _ _ h' with h1 | ⟨ws, _, h2⟩
    · obtain ⟨x, _, hfx⟩ := collectMap_error_inv _ _ _ h1
      exact episode_watch_of_error rk x e hfx
    · exact Except.noConfusion h2

/-- Witness for C10 at a concrete input: a movie projection that fails does
so with the constant unwrap panic message. -/
theorem usd_never_returns_none_witness :
    create_movie_history [("a", ⟨"a", 9000000000000000, 10, 50, none, none⟩)] "k" =
      Except.error unwrapPanicMsg ∧
    (unwrapPanicMsg = unwrapPanicMsg ∨ unwrapPanicMsg = mulOverflowPanicMsg) :=
  ⟨rfl, usd_never_returns_none.2.1
    [("a", ⟨"a", 9000000000000000, 10, 50, none, none⟩)] "k" unwrapPanicMsg rfl⟩
